import Mathlib

/-!
Verification of the nuts-ml adapter layer (`nutsml/network.py` and the
behaviour pinned by `tests/nutsml/test_common.py`).

Python values are modelled as follows: floats/scores are rationals `ℚ`
(exact stand-ins for the comparable scalars the code manipulates), numpy
row vectors are `List ℚ`, 2-d arrays are lists of rows, and a batch is the
tuple (list) of its column arrays.  Fallible code returns `Except String`.
-/

namespace NutsML

/-- Python index resolution: a negative index counts from the end. -/
def pyIdx (n : ℕ) (i : ℤ) : ℤ :=
  if i < 0 then i + n else i

/-- Python `l[i]`: `none` models an `IndexError`. -/
def pyGet (l : List α) (i : ℤ) : Option α :=
  let j := pyIdx l.length i
  if h : 0 ≤ j ∧ j.toNat < l.length then some (l.get ⟨j.toNat, h.2⟩) else none

/-- Python slice `l[:i]` (negative bounds count from the end and clamp at 0). -/
def pySliceTo (l : List α) (i : ℤ) : List α :=
  let j := pyIdx l.length i
  l.take (max j 0).toNat

/-- A numpy row vector, with entries modelled as rationals. -/
abbrev Row : Type := List ℚ

/-- A 2-d numpy array: a list of rows.  A batch column is such an array,
holding one row per sample. -/
abbrev Arr : Type := List Row

/-- A batch: the tuple of its column arrays (`network.py` convention:
features first, targets conventionally in the last column). -/
abbrev Batch : Type := List Arr

/-- `np.vstack` applied to a list of row vectors: it stacks them as the
rows of one 2-d array, which in this model is the list of rows itself.
On an empty list `np.vstack` raises `ValueError` ("need at least one
array to concatenate"). -/
def vstack (rows : List Row) : Except String Arr :=
  if rows = [] then .error "ValueError: need at least one array to concatenate"
  else .ok rows

/-- `targets.astype(np.float)` (network.py line 92): since scalars are
already modelled by `ℚ`, the float conversion is the identity here. -/
def astypeFloat (a : Arr) : Arr := a

/-- The inner `accumulate` of `EvalNut` (network.py lines 83-86):
`p_batch, target = batch[:targetcol], batch[targetcol]`.  Returns the
feature columns passed on to prediction together with the target array;
an out-of-range `targetcol` is an `IndexError`. -/
def accumulate (targetcol : ℤ) (batch : Batch) : Except String (Batch × Arr) :=
  match pyGet batch targetcol with
  | some target => .ok (pySliceTo batch targetcol, target)
  | none => .error "IndexError: tuple index out of range"

/-- The value returned by `EvalNut` (network.py line 94): a tuple of
metric results, or the single result when there is only one metric. -/
inductive EvalResult (ρ : Type) where
  | single (r : ρ)
  | multiple (rs : List ρ)
deriving DecidableEq

/-- `results if len(results) > 1 else results[0]` for nonempty `results`. -/
def mkEvalResult : List ρ → EvalResult ρ
  | [r] => .single r
  | rs => .multiple rs

/-- `EvalNut` (network.py lines 56-94) at the default `predcol=None`,
where the nutsflow stage `Get(None)` passes each prediction batch through
unchanged.  `predFn` is `network.predict(flatten=False)` applied to one
batch of feature columns.  Per batch, `accumulate` extends the `targets`
list with the rows of the batch's target array and hands the remaining
columns to prediction; `Flatten() >> Collect()` then flattens the
prediction batches into the list of individual prediction rows.  Both
accumulated lists are stacked with `np.vstack` (network.py line 91, a
`ValueError` when a list has no rows), targets are cast with `astype`,
and every metric is computed once on the stacked arrays. -/
def evalNut (batches : List Batch) (predFn : Batch → Arr) (metrics : List μ)
    (compute : μ → Arr → Arr → ρ) (targetcol : ℤ) :
    Except String (EvalResult ρ) := do
  let acc ← batches.mapM (accumulate targetcol)
  let targets : List Row := (acc.map (fun pb => pb.2)).flatten
  let preds : List Row := (acc.map (fun pb => predFn pb.1)).flatten
  let targetsArr ← vstack targets
  let predsArr ← vstack preds
  let targetsArr2 := astypeFloat targetsArr
  let results := metrics.map (fun m => compute m targetsArr2 predsArr)
  if results.length > 1 then .ok (.multiple results)
  else
    match results with
    | [r] => .ok (.single r)
    | _ => .error "IndexError: tuple index out of range"

/-- The state held by `Network.__init__` (network.py lines 104-112):
the weights filepath and the best score so far (`None` initially).
`best_score = none` models Python `None`; `some q` a float score. -/
structure NetState where
  filepath : String
  best_score : Option ℚ
deriving DecidableEq

/-- The guard of `Network.save_best` (network.py lines 172-174):
`not self.best_score or (isloss is True and score < self.best_score) or
(isloss is False and score > self.best_score)`.  Python's `not` on a float
is true exactly when the float is `None` or zero, so `some 0` passes the
first disjunct. -/
def saveBestCond (best : Option ℚ) (score : ℚ) (isloss : Bool) : Bool :=
  match best with
  | none => true
  | some b =>
      decide (b = 0) || (isloss && decide (score < b)) ||
        (!isloss && decide (score > b))

/-- `Network.save_best` (network.py lines 163-176).  Returns the new state
and whether `save_weights` was called (the weights file overwritten). -/
def saveBest (st : NetState) (score : ℚ) (isloss : Bool) : NetState × Bool :=
  if saveBestCond st.best_score score isloss then
    ({ st with best_score := some score }, true)
  else
    (st, false)

/-- The operations of the abstract base class `Network`
(network.py lines 97-196). -/
inductive NetOp where
  | train
  | validate
  | predict
  | evaluate
  | save_weights
  | load_weights
  | print_layers
  | save_best (score : ℚ) (isloss : Bool)
deriving DecidableEq

/-- Whether an operation is `save_best`. -/
def NetOp.isSaveBest : NetOp → Bool
  | .save_best _ _ => true
  | _ => false

/-- The `NotImplementedError` message each abstract method raises. -/
def implementMsg : NetOp → String
  | .train => "Implement train()!"
  | .validate => "Implement validate()!"
  | .predict => "Implement predict()!"
  | .evaluate => "Implement evaluate()!"
  | .save_weights => "Implement save_weights()!"
  | .load_weights => "Implement load_weights()!"
  | .print_layers => "Implement print_layers()!"
  | .save_best _ _ => ""

/-- One call on the abstract base class `Network` (network.py lines
114-196): every method except `save_best` raises `NotImplementedError`
and touches no field; `save_best` runs its guard.  The `Bool` in the
result reports whether `save_weights` was invoked. -/
def netStep (st : NetState) : NetOp → NetState × Except String Bool
  | .save_best score isloss =>
      let p := saveBest st score isloss
      (p.1, .ok p.2)
  | op => (st, .error (implementMsg op))

/-!
The remaining operations the tests exercise — `CheckNaN` and
`SplitRandom` — are part of this repository (the tests import them from
`nutsml`) but their source files are not under src/.  They are modelled
below from the spec and from the behaviour their tests pin down.
-/

/-- Modelled from the spec: the items `CheckNaN` inspects.  Its source is
missing from src/; per its tests an item is a float or a tuple of floats,
any of which may be NaN.  NaN is a dedicated constructor, not a float. -/
inductive Scalar where
  | num (q : ℚ)
  | nan
deriving DecidableEq

/-- An element of a stream checked by `CheckNaN`: a scalar or a tuple. -/
inductive Item where
  | scalar (s : Scalar)
  | tup (ss : List Scalar)
deriving DecidableEq

/-- Whether a scalar is NaN. -/
def Scalar.isNaN : Scalar → Bool
  | .nan => true
  | .num _ => false

/-- Whether an item contains a NaN anywhere. -/
def Item.hasNaN : Item → Bool
  | .scalar s => s.isNaN
  | .tup ss => ss.any Scalar.isNaN

/-- Modelled from the spec: `CheckNaN`, whose source is missing from
src/.  Per `test_CheckNaN` it passes items through unchanged and raises
`RuntimeError` starting with "NaN encountered" as soon as an item
contains a NaN. -/
def checkNaN : List Item → Except String (List Item)
  | [] => .ok []
  | x :: xs =>
      if x.hasNaN then .error "NaN encountered"
      else (checkNaN xs).map (fun r => x :: r)

/-- A linear congruential generator: the seedable random source of the
`SplitRandom` model. -/
def lcg (s : ℕ) : ℕ := (s * 1103515245 + 12345) % 2 ^ 31

/-- The first `n` states of the generator started at `seed`. -/
def rngList : ℕ → ℕ → List ℕ
  | _, 0 => []
  | s, n + 1 => lcg s :: rngList (lcg s) n

/-- Insertion into a list sorted by the numeric rank in the second
component (stable: ties keep the existing order). -/
def insertRanked (x : α × ℕ) : List (α × ℕ) → List (α × ℕ)
  | [] => [x]
  | y :: ys => if x.2 < y.2 then x :: y :: ys else y :: insertRanked x ys

/-- Insertion sort by rank. -/
def sortRanked : List (α × ℕ) → List (α × ℕ)
  | [] => []
  | x :: xs => insertRanked x (sortRanked xs)

/-- Shuffle: pair every element with a rank drawn from the seeded random
source and sort by rank.  A deterministic function of the seed. -/
def shuffle (seed : ℕ) (xs : List α) : List α :=
  (sortRanked (xs.zip (rngList seed xs.length))).map Prod.fst

/-- Group a list by a key function: one group per distinct key, each
group holding every element with that key, in input order. -/
def groupByKey [DecidableEq κ] (k : α → κ) (xs : List α) : List (List α) :=
  ((xs.map k).dedup).map (fun c => xs.filter (fun x => decide (k x = c)))

/-- Take whole groups off the front of a group list until at least
`t` elements have been taken; returns the taken prefix and the rest. -/
def takeGroups : ℕ → List (List α) → List (List α) × List (List α)
  | _, [] => ([], [])
  | t, g :: gs =>
      if t = 0 then ([], g :: gs)
      else
        let p := takeGroups (t - g.length) gs
        (g :: p.1, p.2)

/-- Fill the buckets: each bucket takes whole groups up to its target
size; the last bucket receives everything that remains. -/
def fill : List ℕ → List (List α) → List (List α)
  | [], _ => []
  | [_], gs => [gs.flatten]
  | t :: ts, gs =>
      let p := takeGroups t gs
      p.1.flatten :: fill ts p.2

/-- The target size of each bucket: its share of the `n` elements,
rounded down. -/
def bucketSizes (shares : List ℚ) (n : ℕ) : List ℕ :=
  shares.map (fun r => (Rat.floor (r * n)).toNat)

/-- Modelled from the spec: the core of `SplitRandom` on an already
grouped input.  Validates that the shares sum to one (`ValueError`
otherwise, per `test_SplitRandom_ratios`), shuffles the groups with the
seeded random source and fills the buckets group by group. -/
def splitRandomGroups (seed : ℕ) (shares : List ℚ) (groups : List (List α)) :
    Except String (List (List α)) :=
  if shares.sum = 1 then
    .ok (fill (bucketSizes shares (groups.map List.length).sum) (shuffle seed groups))
  else
    .error "Ratios must sum up to one"

/-- Modelled from the spec: `SplitRandom`, whose source is missing from
src/.  It partitions a sequence into share-sized buckets, optionally
keeping every element with the same constraint value in one bucket, using
a seedable random source.  A single float share `r` of the Python API
corresponds to the share list `[r, 1 - r]`. -/
def splitRandom {α : Type u} {κ : Type v} [DecidableEq κ] (seed : ℕ) (shares : List ℚ)
    (constraint : Option (α → κ)) (xs : List α) :
    Except String (List (List α)) :=
  let groups :=
    match constraint with
    | none => xs.map (fun x => [x])
    | some k => groupByKey k xs
  splitRandomGroups seed shares groups

/-- Cutting a list at consecutive target sizes, the last cut taking the
remainder: the behaviour of `fill` on singleton groups. -/
def chop : List ℕ → List α → List (List α)
  | [], _ => []
  | [_], xs => [xs]
  | t :: ts, xs => xs.take t :: chop ts (xs.drop t)

/-- Equality of `Except` values is decidable when it is for both sides. -/
instance [DecidableEq ε] [DecidableEq β] : DecidableEq (Except ε β) := fun a b =>
  match a, b with
  | .ok x, .ok y =>
      if h : x = y then .isTrue (by rw [h])
      else .isFalse (by intro hc; cases hc; exact h rfl)
  | .error x, .error y =>
      if h : x = y then .isTrue (by rw [h])
      else .isFalse (by intro hc; cases hc; exact h rfl)
  | .ok _, .error _ => .isFalse (by intro hc; cases hc)
  | .error _, .ok _ => .isFalse (by intro hc; cases hc)

section Results

attribute [local semireducible] Rat.mul Rat.add Rat.inv Rat.sub

/-- Python `batch[-1]` is the last element. -/
theorem pyGet_last (l : List α) (h : l ≠ []) : pyGet l (-1) = some (l.getLast h) := by
  have hn : 0 < l.length := List.length_pos.2 h
  have h2 : (0 : ℤ) ≤ -1 + l.length ∧ ((-1 : ℤ) + l.length).toNat < l.length := by omega
  simp only [pyGet, pyIdx, if_pos (show (-1 : ℤ) < 0 by norm_num), dif_pos h2]
  have h3 : ((-1 : ℤ) + l.length).toNat = l.length - 1 := by omega
  simp only [h3]
  rw [List.getLast_eq_get]

/-- Python `batch[:-1]` is everything but the last element. -/
theorem pySliceTo_last (l : List α) : pySliceTo l (-1) = l.dropLast := by
  simp only [pySliceTo, pyIdx, if_pos (show (-1 : ℤ) < 0 by norm_num)]
  rw [List.dropLast_eq_take]
  congr 1
  rcases l with _ | ⟨x, xs⟩
  · rw [max_eq_right (by norm_num : (-1 : ℤ) + ([] : List α).length ≤ 0)]
    rfl
  · rw [max_eq_left (by push_cast [List.length_cons]; omega :
      (0 : ℤ) ≤ -1 + (x :: xs).length)]
    omega

/-- `accumulate` at the default target column splits off the last column. -/
theorem accumulate_last (b : Batch) (h : b ≠ []) :
    accumulate (-1) b = .ok (b.dropLast, b.getLast h) := by
  unfold accumulate
  rw [pyGet_last b h, pySliceTo_last]

/-- Claim C1 fails on the code: starting from a fresh network, `save_best 0`
with `isloss = True` sets `best_score` to `0`, and a later `save_best 5`
then *increases* `best_score` to `5` although `5` is not lower than `0`,
because the guard `not self.best_score` treats the float `0.0` as unset.
This contradicts the docstring of `save_best` ("the network with the
lower score is saved"). -/
theorem saveBest_zero_best_nonmonotonic :
    (saveBest ⟨"weights", none⟩ 0 true).1.best_score = some 0 ∧
      (saveBest (saveBest ⟨"weights", none⟩ 0 true).1 5 true).1.best_score = some 5 ∧
      ¬ ((5 : ℚ) < 0) := by
  decide

/-- Claim C2 fails on the code at the same inputs: with `best_score = 0`
(set by an earlier accepted call) and `isloss = True`, `save_best 5` calls
`save_weights` (the second component is `true`) even though `5` is not an
improvement over the current best score `0`. -/
theorem saveBest_saves_without_improvement :
    (saveBest (saveBest ⟨"weights", none⟩ 0 true).1 5 true).2 = true ∧
      ¬ ((5 : ℚ) < 0) := by
  decide

/-- Claim C9: the fields of a `Network` are mutated only by `save_best`:
every operation preserves `filepath`, and every operation other than
`save_best` also preserves `best_score`. -/
theorem netStep_frame (st : NetState) (op : NetOp) :
    (netStep st op).1.filepath = st.filepath ∧
      (op.isSaveBest = false → (netStep st op).1.best_score = st.best_score) := by
  cases op
  case save_best score isloss =>
    constructor
    · show (saveBest st score isloss).1.filepath = st.filepath
      unfold saveBest
      split <;> rfl
    · intro hfalse
      simp [NetOp.isSaveBest] at hfalse
  all_goals exact ⟨rfl, fun _ => rfl⟩

/-- Witness for C9 at a concrete state and operation. -/
theorem netStep_frame_witness :
    (netStep ⟨"weights", some 1⟩ .train).1.filepath = "weights" ∧
      (netStep ⟨"weights", some 1⟩ .train).1.best_score = some 1 :=
  ⟨(netStep_frame ⟨"weights", some 1⟩ .train).1,
    (netStep_frame ⟨"weights", some 1⟩ .train).2 rfl⟩

/-- Claim C10: when `best_score` holds a non-zero value, `save_best` with
a score equal to the current best is a no-op: the strict comparisons
reject the tie, the state is unchanged and `save_weights` is not called. -/
theorem saveBest_tie_noop (st : NetState) (v : ℚ) (isloss : Bool)
    (hbs : st.best_score = some v) (hv : v ≠ 0) :
    saveBest st v isloss = (st, false) := by
  unfold saveBest saveBestCond
  rw [hbs]
  cases isloss <;> simp [hv, lt_irrefl]

/-- Witness for C10 at a concrete state. -/
theorem saveBest_tie_noop_witness :
    saveBest ⟨"weights", some 3⟩ 3 true = (⟨"weights", some 3⟩, false) :=
  saveBest_tie_noop ⟨"weights", some 3⟩ 3 true rfl (by norm_num)

/-- Claim C5: at the default `targetcol = -1`, `accumulate` takes the
last element of the batch tuple as the target array and passes exactly
the preceding elements on as the prediction input. -/
theorem accumulate_takes_last_column (b : Batch) (h : b ≠ []) :
    accumulate (-1) b = .ok (b.dropLast, b.getLast h) :=
  accumulate_last b h

/-- Witness for C5 on a concrete three-column batch. -/
theorem accumulate_takes_last_column_witness :
    accumulate (-1) [[[1]], [[2]], [[3]]] = .ok ([[[1]], [[2]]], [[3]]) :=
  accumulate_takes_last_column [[[1]], [[2]], [[3]]] (by decide)

/-- On nonempty batches, accumulating every batch succeeds and yields the
feature columns and target array of each batch. -/
theorem mapM_accumulate_ok (batches : List Batch) (hb : ∀ b ∈ batches, b ≠ []) :
    batches.mapM (accumulate (-1)) =
      .ok (batches.map fun b => (b.dropLast, b.getLast?.getD [])) := by
  induction batches with
  | nil => rfl
  | cons b bs ih =>
      have hb0 : b ≠ [] := hb b (List.mem_cons_self b bs)
      have hacc : accumulate (-1) b = .ok (b.dropLast, b.getLast?.getD []) := by
        rw [accumulate_last b hb0, List.getLast?_eq_getLast b hb0]
        rfl
      rw [List.mapM_cons, hacc, ih (fun x hx => hb x (List.mem_cons_of_mem b hx))]
      rfl

/-- Binding an `ok` value in the `Except` monad applies the continuation. -/
theorem exceptBind_ok {ε α β : Type} (a : α) (f : α → Except ε β) :
    (Except.ok a >>= f : Except ε β) = f a := rfl

/-- `np.vstack` succeeds exactly on a nonempty row list, returning the
stacked array. -/
theorem vstack_ok (rows : List Row) (h : rows ≠ []) : vstack rows = .ok rows := by
  unfold vstack
  rw [if_neg h]

/-- Claim C4: `EvalNut` first accumulates the targets and predictions of
all batches, stacks each accumulated list into one full array, and then
applies each metric function via `compute` exactly once to the full
stacked targets and predictions — the result equals the map of `compute`
over the metrics evaluated at the stacked arrays of the whole batch
sequence, never at an individual batch.  The hypotheses `ht` and `hp`
require at least one accumulated target row and prediction row: on an
empty row list `np.vstack` raises a `ValueError` before any metric is
applied (so does the model). -/
theorem evalNut_metrics_on_full_arrays {μ ρ : Type} (batches : List Batch)
    (predFn : Batch → Arr) (metrics : List μ) (compute : μ → Arr → Arr → ρ)
    (hb : ∀ b ∈ batches, b ≠ []) (hm : metrics ≠ [])
    (ht : ((batches.map fun b => b.getLast?.getD []).flatten) ≠ [])
    (hp : ((batches.map fun b => predFn b.dropLast).flatten) ≠ []) :
    evalNut batches predFn metrics compute (-1) =
      .ok (mkEvalResult (metrics.map fun m =>
        compute m
          (astypeFloat ((batches.map fun b => b.getLast?.getD []).flatten))
          ((batches.map fun b => predFn b.dropLast).flatten))) := by
  unfold evalNut
  rw [mapM_accumulate_ok batches hb]
  simp only [exceptBind_ok, List.map_map, Function.comp_def]
  rw [vstack_ok _ ht, vstack_ok _ hp]
  simp only [exceptBind_ok]
  rcases metrics with _ | ⟨m₁, _ | ⟨m₂, ms⟩⟩
  · exact absurd rfl hm
  · rfl
  · rw [if_pos (by simp [List.length_cons])]
    rfl

/-- Witness for C4: two two-column batches, one metric. -/
theorem evalNut_metrics_on_full_arrays_witness :
    evalNut [[[[1]], [[2]]], [[[3]], [[4]]]] (fun b => b.flatten) [(7 : ℕ)]
        (fun m t p => (m, t, p)) (-1) =
      .ok (.single (7, [[2], [4]], [[1], [3]])) := by
  rw [evalNut_metrics_on_full_arrays _ _ _ _ (by decide) (by decide) (by decide)
    (by decide)]
  rfl

/-- The random stream has the requested length. -/
theorem rngList_length (s n : ℕ) : (rngList s n).length = n := by
  induction n generalizing s with
  | zero => rfl
  | succ n ih => simp [rngList, ih]

/-- Ranked insertion permutes. -/
theorem insertRanked_perm (x : α × ℕ) (l : List (α × ℕ)) :
    (insertRanked x l).Perm (x :: l) := by
  induction l with
  | nil => exact List.Perm.refl _
  | cons y ys ih =>
      unfold insertRanked
      split
      · exact List.Perm.refl _
      · exact (ih.cons y).trans (List.Perm.swap x y ys)

/-- Sorting by rank permutes. -/
theorem sortRanked_perm (l : List (α × ℕ)) : (sortRanked l).Perm l := by
  induction l with
  | nil => exact List.Perm.refl _
  | cons x xs ih => exact (insertRanked_perm x (sortRanked xs)).trans (ih.cons x)

/-- A shuffle is a permutation of its input. -/
theorem shuffle_perm (seed : ℕ) (xs : List α) : (shuffle seed xs).Perm xs := by
  unfold shuffle
  have h1 := (sortRanked_perm (xs.zip (rngList seed xs.length))).map Prod.fst
  rw [List.map_fst_zip xs _ (le_of_eq (rngList_length seed xs.length).symm)] at h1
  exact h1

/-- Ranked insertion only inspects ranks, so it commutes with mapping
over the carried values. -/
theorem insertRanked_map (f : α → β) (x : α × ℕ) (l : List (α × ℕ)) :
    insertRanked (Prod.map f id x) (l.map (Prod.map f id)) =
      (insertRanked x l).map (Prod.map f id) := by
  induction l with
  | nil => rfl
  | cons y ys ih =>
      by_cases h : x.2 < y.2
      · simp [insertRanked, h, Prod.map]
      · simp [insertRanked, h, Prod.map]
        simpa [Prod.map] using ih

/-- Sorting by rank commutes with mapping over the carried values. -/
theorem sortRanked_map (f : α → β) (l : List (α × ℕ)) :
    sortRanked (l.map (Prod.map f id)) =
      (sortRanked l).map (Prod.map f id) := by
  induction l with
  | nil => rfl
  | cons x xs ih =>
      simp only [List.map_cons, sortRanked, ih]
      exact insertRanked_map f x (sortRanked xs)

/-- Shuffling commutes with mapping: ranks are drawn by position only. -/
theorem shuffle_map (f : α → β) (seed : ℕ) (xs : List α) :
    shuffle seed (xs.map f) = (shuffle seed xs).map f := by
  unfold shuffle
  rw [List.length_map, List.zip_map_left, sortRanked_map]
  simp [List.map_map, Prod.map, Function.comp_def]

/-- `takeGroups` splits its input into a prefix and the rest. -/
theorem takeGroups_append (t : ℕ) (gs : List (List α)) :
    (takeGroups t gs).1 ++ (takeGroups t gs).2 = gs := by
  induction gs generalizing t with
  | nil => rfl
  | cons g gs ih =>
      unfold takeGroups
      split
      · rfl
      · simp [ih]

/-- The buckets built by `fill` are the flattenings of a partition of the
group list into consecutive chunks. -/
theorem fill_chunks (ts : List ℕ) (gs : List (List α)) (h : ts ≠ []) :
    ∃ css : List (List (List α)),
      fill ts gs = css.map List.flatten ∧ css.flatten = gs := by
  induction ts generalizing gs with
  | nil => exact absurd rfl h
  | cons t ts ih =>
      cases ts with
      | nil => exact ⟨[gs], rfl, by simp⟩
      | cons t' ts' =>
          obtain ⟨css, h1, h2⟩ := ih (takeGroups t gs).2 (by simp)
          refine ⟨(takeGroups t gs).1 :: css, ?_, ?_⟩
          · simp [fill, h1]
          · simp [h2, takeGroups_append]

/-- Flattening singleton groups recovers the underlying list. -/
theorem flatten_singletons (xs : List α) : (xs.map fun x => [x]).flatten = xs := by
  induction xs <;> simp_all

/-- On singleton groups, `takeGroups` is take/drop of the underlying list. -/
theorem takeGroups_singletons (t : ℕ) (xs : List α) :
    takeGroups t (xs.map fun x => [x]) =
      ((xs.take t).map fun x => [x], (xs.drop t).map fun x => [x]) := by
  induction xs generalizing t with
  | nil => simp [takeGroups]
  | cons x xs ih =>
      cases t with
      | zero => simp [takeGroups]
      | succ s =>
          simp only [List.map_cons]
          unfold takeGroups
          rw [if_neg (Nat.succ_ne_zero s)]
          simp [ih]

/-- On singleton groups, `fill` cuts the underlying list at the target
sizes, the last bucket taking the remainder. -/
theorem fill_singletons (ts : List ℕ) (xs : List α) :
    fill ts (xs.map fun x => [x]) = chop ts xs := by
  induction ts generalizing xs with
  | nil => rfl
  | cons t ts ih =>
      cases ts with
      | nil => simp [fill, chop, flatten_singletons]
      | cons t' ts' =>
          simp only [fill, chop, takeGroups_singletons]
          rw [flatten_singletons (xs.take t), ih (xs.drop t)]

/-- The cuts of `chop` concatenate back to the input. -/
theorem chop_flatten (ts : List ℕ) (xs : List α) (h : ts ≠ []) :
    (chop ts xs).flatten = xs := by
  induction ts generalizing xs with
  | nil => exact absurd rfl h
  | cons t ts ih =>
      cases ts with
      | nil => simp [chop]
      | cons t' ts' => simp [chop, ih, List.take_append_drop]

/-- When the target sizes sum to the input length, every cut of `chop`
has exactly its target size. -/
theorem chop_sizes (ts : List ℕ) (xs : List α) (h : ts.sum = xs.length) :
    List.Forall₂ (fun t (c : List α) => c.length = t) ts (chop ts xs) := by
  induction ts generalizing xs with
  | nil => exact List.Forall₂.nil
  | cons t ts ih =>
      cases ts with
      | nil =>
          refine List.Forall₂.cons ?_ List.Forall₂.nil
          simpa using h.symm
      | cons t' ts' =>
          have hle : t ≤ xs.length := by
            simp [List.sum_cons] at h
            omega
          refine List.Forall₂.cons ?_ (ih (xs.drop t) ?_)
          · simp [List.length_take]
            omega
          · simp only [List.length_drop]
            simp [List.sum_cons] at h ⊢
            omega

/-- The total size of singleton groups is the length of the list. -/
theorem length_singletons_sum (xs : List α) :
    ((xs.map fun x => [x]).map List.length).sum = xs.length := by
  induction xs with
  | nil => rfl
  | cons x xs ih =>
      simp_all
      omega

/-- The floor of a natural number cast to the rationals. -/
theorem ratFloor_natCast (m : ℕ) : Rat.floor (m : ℚ) = m := by
  rw [Rat.floor_def']
  simp

/-- When a share times the population size is a natural number, the
corresponding bucket size equals it exactly. -/
theorem bucketSizes_cast (shares : List ℚ) (n : ℕ)
    (hint : ∀ r ∈ shares, ∃ m : ℕ, r * n = m) :
    ∀ r ∈ shares, (((Rat.floor (r * n)).toNat : ℚ)) = r * n := by
  intro r hr
  obtain ⟨m, hm⟩ := hint r hr
  rw [hm, ratFloor_natCast]
  simp

/-- When every share of the population is integral and the shares sum to
one, the bucket sizes sum to the population size. -/
theorem bucketSizes_sum (shares : List ℚ) (n : ℕ)
    (hint : ∀ r ∈ shares, ∃ m : ℕ, r * n = m) (hsum : shares.sum = 1) :
    (bucketSizes shares n).sum = n := by
  have key : ∀ sh : List ℚ, (∀ r ∈ sh, ∃ m : ℕ, r * n = m) →
      ((bucketSizes sh n).sum : ℚ) = sh.sum * n := by
    intro sh
    induction sh with
    | nil => intro _; simp [bucketSizes]
    | cons r rs ih =>
        intro hsh
        have hr := bucketSizes_cast (r :: rs) n hsh r (List.mem_cons_self r rs)
        have htl := ih fun q hq => hsh q (List.mem_cons_of_mem r hq)
        simp only [bucketSizes, List.map_cons, List.sum_cons, Nat.cast_add]
        simp only [bucketSizes] at htl
        rw [hr, htl]
        ring
  have := key shares hint
  rw [hsum, one_mul] at this
  exact_mod_cast this

/-- Transport a `Forall₂` along an implication that may use membership. -/
theorem forall2_mem_imp {α β : Type} {R S : α → β → Prop} :
    ∀ {l : List α} {l' : List β}, List.Forall₂ R l l' →
      (∀ a ∈ l, ∀ b, R a b → S a b) → List.Forall₂ S l l'
  | _, _, List.Forall₂.nil, _ => List.Forall₂.nil
  | _, _, List.Forall₂.cons h t, himp =>
      List.Forall₂.cons (himp _ (by simp) _ h)
        (forall2_mem_imp t fun a ha b hr => himp a (by simp [ha]) b hr)

/-- Claim C6: without a constraint and with a valid share list summing to
one, `SplitRandom` returns pairwise disjoint partitions that together
contain exactly the input elements, the size of each partition being its
share times `n`.  The sizes can only be exact when each share of `n` is a
whole number, as in the pinned tests (`hint`); disjointness is stated for
duplicate-free inputs such as the test's `range(1000)`. -/
theorem splitRandom_partition_sizes {α : Type} (seed : ℕ) (shares : List ℚ)
    (xs : List α) (hsum : shares.sum = 1)
    (hint : ∀ r ∈ shares, ∃ m : ℕ, r * xs.length = m)
    (hnd : xs.Nodup) :
    ∃ bs : List (List α),
      splitRandom seed shares (none : Option (α → Unit)) xs = .ok bs ∧
        bs.flatten.Perm xs ∧ bs.Pairwise List.Disjoint ∧
        List.Forall₂ (fun r (b : List α) => (b.length : ℚ) = r * xs.length)
          shares bs := by
  have hne : shares ≠ [] := by
    rintro rfl
    norm_num at hsum
  have hbne : bucketSizes shares xs.length ≠ [] := by
    unfold bucketSizes
    simpa using hne
  have hsplit : splitRandom seed shares (none : Option (α → Unit)) xs =
      .ok (chop (bucketSizes shares xs.length) (shuffle seed xs)) := by
    have e0 : splitRandom seed shares (none : Option (α → Unit)) xs =
        splitRandomGroups seed shares (xs.map fun x => [x]) := rfl
    rw [e0]
    unfold splitRandomGroups
    rw [if_pos hsum, length_singletons_sum, shuffle_map (fun x => [x]) seed xs,
      fill_singletons]
  have hys : (shuffle seed xs).Perm xs := shuffle_perm seed xs
  have hflat :
      (chop (bucketSizes shares xs.length) (shuffle seed xs)).flatten =
        shuffle seed xs :=
    chop_flatten _ _ hbne
  refine ⟨_, hsplit, ?_, ?_, ?_⟩
  · rw [hflat]
    exact hys
  · have hnd' : (shuffle seed xs).Nodup := hys.nodup_iff.mpr hnd
    have hfl :
        (chop (bucketSizes shares xs.length) (shuffle seed xs)).flatten.Nodup := by
      rw [hflat]
      exact hnd'
    exact (List.nodup_flatten.mp hfl).2
  · have hsizes : (bucketSizes shares xs.length).sum = (shuffle seed xs).length := by
      rw [hys.length_eq]
      exact bucketSizes_sum shares xs.length hint hsum
    have hF := chop_sizes (bucketSizes shares xs.length) (shuffle seed xs) hsizes
    unfold bucketSizes at hF
    have hF2 := List.forall₂_map_left_iff.mp hF
    exact forall2_mem_imp hF2 fun r hr c hc => by
      rw [hc]
      exact bucketSizes_cast shares xs.length hint r hr

/-- Witness for C6: the pinned 70/30 split of `range` with seed 0. -/
theorem splitRandom_partition_sizes_witness :
    ∃ bs : List (List ℕ),
      splitRandom 0 [7/10, 3/10] (none : Option (ℕ → Unit)) (List.range 10) =
          .ok bs ∧
        bs.flatten.Perm (List.range 10) ∧ bs.Pairwise List.Disjoint ∧
        List.Forall₂
          (fun r (b : List ℕ) => (b.length : ℚ) = r * (List.range 10).length)
          [7/10, 3/10] bs :=
  splitRandom_partition_sizes 0 [7/10, 3/10] (List.range 10)
    (by norm_num)
    (by
      intro r hr
      rcases List.mem_cons.mp hr with h | h
      · exact ⟨7, by rw [h]; simp⟩
      · rcases List.mem_cons.mp h with h' | h'
        · exact ⟨3, by rw [h']; simp⟩
        · exact absurd h' (List.not_mem_nil r))
    (List.nodup_range 10)

/-- Claim C7: `SplitRandom` is deterministic given its random source —
identically seeded runs return equal splits — while differently seeded
sources may produce different splits, as for seeds 0 and 1 on `range(10)`
in the pinned test. -/
theorem splitRandom_seed_determinism {α κ : Type} [DecidableEq κ]
    (s₁ s₂ : ℕ) (shares : List ℚ) (constraint : Option (α → κ)) (xs : List α)
    (h : s₁ = s₂) :
    splitRandom s₁ shares constraint xs = splitRandom s₂ shares constraint xs ∧
      splitRandom 0 [7/10, 3/10] (none : Option (ℕ → Unit)) (List.range 10) ≠
        splitRandom 1 [7/10, 3/10] (none : Option (ℕ → Unit)) (List.range 10) := by
  subst h
  exact ⟨rfl, by decide⟩

/-- Witness for C7 at concrete seeds and input. -/
theorem splitRandom_seed_determinism_witness :
    splitRandom 0 ([] : List ℚ) (none : Option (ℕ → Unit)) ([] : List ℕ) =
        splitRandom 0 [] (none : Option (ℕ → Unit)) ([] : List ℕ) ∧
      splitRandom 0 [7/10, 3/10] (none : Option (ℕ → Unit)) (List.range 10) ≠
        splitRandom 1 [7/10, 3/10] (none : Option (ℕ → Unit)) (List.range 10) :=
  splitRandom_seed_determinism 0 0 [] none [] rfl

/-- Distinct groups built by `groupByKey` carry distinct keys. -/
theorem groupByKey_pairwise {α κ : Type} [DecidableEq κ] (k : α → κ)
    (xs : List α) :
    (groupByKey k xs).Pairwise fun g g' => ∀ a ∈ g, ∀ b ∈ g', k a ≠ k b := by
  unfold groupByKey
  rw [List.pairwise_map]
  refine List.Pairwise.imp ?_ (List.nodup_dedup (xs.map k))
  intro c c' hcc a ha b hb
  have hac : k a = c := of_decide_eq_true (List.mem_filter.mp ha).2
  have hbc : k b = c' := of_decide_eq_true (List.mem_filter.mp hb).2
  rw [hac, hbc]
  exact hcc

/-- Claim C8: two input elements on which the constraint function takes
the same value are placed by `SplitRandom` into the same partition:
whole constraint groups are assigned to buckets, so equal-key elements
can never appear in buckets with different indices. -/
theorem splitRandom_constraint_same_bucket {α κ : Type} [DecidableEq κ]
    (seed : ℕ) (shares : List ℚ) (k : α → κ) (xs : List α)
    (bs : List (List α))
    (h : splitRandom seed shares (some k) xs = .ok bs)
    (i j : ℕ) (hi : i < bs.length) (hj : j < bs.length)
    (x y : α) (hx : x ∈ bs.get ⟨i, hi⟩) (hy : y ∈ bs.get ⟨j, hj⟩)
    (hk : k x = k y) : i = j := by
  by_contra hij
  have e0 : splitRandom seed shares (some k) xs =
      splitRandomGroups seed shares (groupByKey k xs) := rfl
  rw [e0] at h
  unfold splitRandomGroups at h
  by_cases hs : shares.sum = 1
  · rw [if_pos hs] at h
    injection h with h
    have hne : shares ≠ [] := by
      rintro rfl
      norm_num at hs
    have hbne :
        bucketSizes shares ((groupByKey k xs).map List.length).sum ≠ [] := by
      unfold bucketSizes
      simpa using hne
    obtain ⟨css, hcss, hflat⟩ :=
      fill_chunks _ (shuffle seed (groupByKey k xs)) hbne
    have hbs2 : bs = css.map List.flatten := h.symm.trans hcss
    subst hbs2
    have hpw : (shuffle seed (groupByKey k xs)).Pairwise
        (fun g g' => ∀ a ∈ g, ∀ b ∈ g', k a ≠ k b) :=
      ((shuffle_perm seed (groupByKey k xs)).pairwise_iff
        (fun hgg a ha b hb => (hgg b hb a ha).symm)).mpr
        (groupByKey_pairwise k xs)
    rw [← hflat] at hpw
    have hcross := (List.pairwise_flatten.mp hpw).2
    have hi' : i < css.length := by simpa using hi
    have hj' : j < css.length := by simpa using hj
    have hgeti :
        (css.map List.flatten).get ⟨i, hi⟩ = (css.get ⟨i, hi'⟩).flatten := by
      simp
    have hgetj :
        (css.map List.flatten).get ⟨j, hj⟩ = (css.get ⟨j, hj'⟩).flatten := by
      simp
    rw [hgeti] at hx
    rw [hgetj] at hy
    obtain ⟨g, hgmem, hxg⟩ := List.mem_flatten.mp hx
    obtain ⟨g', hgmem', hyg⟩ := List.mem_flatten.mp hy
    rcases Nat.lt_or_ge i j with hlt | hge
    · exact List.pairwise_iff_get.mp hcross ⟨i, hi'⟩ ⟨j, hj'⟩ hlt
        g hgmem g' hgmem' x hxg y hyg hk
    · have hlt' : j < i := lt_of_le_of_ne hge fun e => hij e.symm
      exact List.pairwise_iff_get.mp hcross ⟨j, hj'⟩ ⟨i, hi'⟩ hlt'
        g' hgmem' g hgmem y hyg x hxg hk.symm
  · rw [if_neg hs] at h
    cases h

/-- Witness for C8 on the grouped test data. -/
theorem splitRandom_constraint_same_bucket_witness :
    (0 : ℕ) = 0 :=
  splitRandom_constraint_same_bucket 0 [3/5, 2/5] (fun n => n / 2)
    (List.range 10) [[0, 1, 8, 9, 4, 5], [2, 3, 6, 7]] (by decide)
    0 0 (by decide) (by decide) 0 1 (by decide) (by decide) (by decide)

/-- Mapping over an `Except` value preserves and reflects errors. -/
theorem exceptMap_error {ε α β : Type} (f : α → β) (r : Except ε α) (e : ε) :
    (r.map f = .error e) ↔ r = .error e := by
  cases r <;> simp [Except.map]

/-- Claim C3 fails on the repository: its own tests pin further error
behaviours — `CheckNaN` raises `RuntimeError` ("NaN encountered") on a
stream containing a NaN, and `SplitRandom` raises `ValueError` ("Ratios
must sum up to one") when its shares do not — and neither message is the
`NotImplementedError` of an abstract `Network` method. -/
theorem repo_errors_beyond_notimplemented :
    checkNaN [.scalar (.num 1), .scalar .nan, .scalar (.num 3)] =
        .error "NaN encountered" ∧
      splitRandom 0 [3/5, 7/10] (none : Option (ℕ → Unit)) (List.range 1000) =
        .error "Ratios must sum up to one" ∧
      implementMsg .train ≠ "NaN encountered" ∧
      implementMsg .save_weights ≠ "Ratios must sum up to one" := by
  refine ⟨by decide, ?_, by decide, by decide⟩
  have e0 : splitRandom 0 [3/5, 7/10] (none : Option (ℕ → Unit))
      (List.range 1000) =
      splitRandomGroups 0 [3/5, 7/10] ((List.range 1000).map fun x => [x]) := rfl
  rw [e0]
  unfold splitRandomGroups
  rw [if_neg (by norm_num)]

/-- Claim C3 amended: besides the abstract `Network` methods signalling
"not implemented", the repository's tests pin exactly two further error
behaviours: `CheckNaN` errors (with "NaN encountered") precisely when the
stream contains a NaN, and `SplitRandom` errors (with "Ratios must sum up
to one") precisely when its shares do not sum to one. -/
theorem error_taxonomy :
    (∀ (st : NetState) (op : NetOp), op.isSaveBest = false →
        (netStep st op).2 = .error (implementMsg op)) ∧
      (∀ xs : List Item,
        (∃ e, checkNaN xs = .error e ∧ e = "NaN encountered") ↔
          xs.any Item.hasNaN = true) ∧
      (∀ (seed : ℕ) (shares : List ℚ) (xs : List ℕ),
        (∃ e, splitRandom seed shares (none : Option (ℕ → Unit)) xs =
              .error e ∧ e = "Ratios must sum up to one") ↔
          shares.sum ≠ 1) := by
  refine ⟨?_, ?_, ?_⟩
  · intro st op hop
    cases op <;> first | rfl | simp [NetOp.isSaveBest] at hop
  · intro xs
    induction xs with
    | nil => simp [checkNaN]
    | cons x xs ih =>
        by_cases hx : x.hasNaN = true
        · simp [checkNaN, hx]
        · have hx' : x.hasNaN = false := by simpa using hx
          simp only [checkNaN, hx', Bool.false_eq_true, if_false,
            List.any_cons, Bool.or_eq_true, exceptMap_error]
          rw [ih]
          simp [hx']
  · intro seed shares xs
    have e0 : splitRandom seed shares (none : Option (ℕ → Unit)) xs =
        splitRandomGroups seed shares (xs.map fun x => [x]) := rfl
    rw [e0]
    unfold splitRandomGroups
    by_cases hs : shares.sum = 1 <;> simp [hs]

/-- Witness for the amended C3 at a concrete state and operation. -/
theorem error_taxonomy_witness :
    (netStep ⟨"weights", none⟩ .validate).2 = .error (implementMsg .validate) :=
  error_taxonomy.1 ⟨"weights", none⟩ .validate rfl

end Results

end NutsML
